import Mathlib

/-!
Verification development for the ERC-721 ownership ledger in src/nfts/lib.rs
(ink! contract module erc721, with token URIs).

The five storage mappings are embedded as association lists with hashmap
lookup semantics (a lookup returns the most recent insertion for a key;
insert overwrites; remove deletes).  Machine integers (u32 balances) are
embedded as Nat with the checked arithmetic of the source made explicit:
checked_add / checked_sub return Option and an unwrap of none is a panic,
modelled as a distinct outcome.  The implicit ink! caller is threaded as an
explicit first argument of every mutating operation.  Each mutating
operation returns an Outcome: ok with the new state, err with an Error kind
and the state as mutated up to the failure point (the raw function-body
semantics of the source; the surrounding host reverts on error, which is
outside this file), or panic for an unwrap failure.
-/

abbrev AccountId := Nat

abbrev TokenId := Nat

abbrev TokenURI := String

/-- AccountId.from([0x0; 32]), the null principal sentinel. -/
def nullAccount : AccountId := 0

/-- Largest value of a u32 balance. -/
def u32Max : Nat := 2 ^ 32 - 1

/-- u32 checked_sub. -/
def checkedSub (c n : Nat) : Option Nat :=
  if c < n then none else some (c - n)

/-- u32 checked_add. -/
def checkedAdd (c n : Nat) : Option Nat :=
  if c + n ≤ u32Max then some (c + n) else none

/-- Lookup in an association-list embedding of an ink! Mapping. -/
def KV.get {α β : Type} [DecidableEq α] : List (α × β) → α → Option β
  | [], _ => none
  | kv :: rest, k => if kv.1 = k then some kv.2 else KV.get rest k

/-- Mapping::contains. -/
def KV.contains {α β : Type} [DecidableEq α] (m : List (α × β)) (k : α) : Bool :=
  (KV.get m k).isSome

/-- Mapping::remove. -/
def KV.remove {α β : Type} [DecidableEq α] : List (α × β) → α → List (α × β)
  | [], _ => []
  | kv :: rest, k => if kv.1 = k then KV.remove rest k else kv :: KV.remove rest k

/-- Mapping::insert (overwrites any previous value for the key). -/
def KV.insert {α β : Type} [DecidableEq α] (m : List (α × β)) (k : α) (v : β) :
    List (α × β) :=
  (k, v) :: KV.remove m k

/-- Number of entries of the map holding a given value. -/
def KV.valCount {α β : Type} [DecidableEq β] : List (α × β) → β → Nat
  | [], _ => 0
  | kv :: rest, v => (if kv.2 = v then 1 else 0) + KV.valCount rest v

/-- The keys of the map are pairwise distinct. -/
def KV.nodupKeys {α β : Type} (m : List (α × β)) : Prop :=
  (m.map Prod.fst).Nodup

/-- The contract storage: struct Erc721 of src/nfts/lib.rs. -/
structure Erc721 where
  token_owner : List (TokenId × AccountId)
  token_approvals : List (TokenId × AccountId)
  owned_tokens_count : List (AccountId × Nat)
  operator_approvals : List ((AccountId × AccountId) × Unit)
  token_uris : List (TokenId × TokenURI)
deriving DecidableEq

/-- Erc721::new, the Default instance: all mappings empty. -/
def Erc721.new : Erc721 := ⟨[], [], [], [], []⟩

/-- enum Error of src/nfts/lib.rs. -/
inductive Error where
  | NotOwner
  | NotApproved
  | TokenExists
  | TokenNotFound
  | CannotInsert
  | CannotFetchValue
  | NotAllowed
deriving DecidableEq

/-- Result of one mutating call: success with the new state, a typed failure
with the state as mutated up to the failure point, or a panic (a failed
unwrap in the checked u32 arithmetic). -/
inductive Outcome where
  | ok (s : Erc721)
  | err (e : Error) (s : Erc721)
  | panic
deriving DecidableEq

/-- The error kind of an outcome, if it is a typed failure. -/
def Outcome.errKind : Outcome → Option Error
  | .err e _ => some e
  | _ => none

/-- balance_of_or_zero. -/
def balance_of_or_zero (s : Erc721) (of : AccountId) : Nat :=
  (KV.get s.owned_tokens_count of).getD 0

/-- balance_of. -/
def balance_of (s : Erc721) (owner : AccountId) : Nat :=
  balance_of_or_zero s owner

/-- owner_of. -/
def owner_of (s : Erc721) (id : TokenId) : Option AccountId :=
  KV.get s.token_owner id

/-- get_approved. -/
def get_approved (s : Erc721) (id : TokenId) : Option AccountId :=
  KV.get s.token_approvals id

/-- the private approved_for_all helper. -/
def approved_for_all_q (s : Erc721) (owner operator_ : AccountId) : Bool :=
  KV.contains s.operator_approvals (owner, operator_)

/-- is_approved_for_all. -/
def is_approved_for_all (s : Erc721) (owner operator_ : AccountId) : Bool :=
  approved_for_all_q s owner operator_

/-- token_uri. -/
def token_uri (s : Erc721) (id : TokenId) : Option TokenURI :=
  KV.get s.token_uris id

/-- approved_or_owner: from is not the null account, and is the owner, the
approved account of the token, or an operator of the owner. -/
def approved_or_owner (s : Erc721) (from_ : AccountId) (id : TokenId)
    (owner : AccountId) : Bool :=
  (from_ != nullAccount) &&
    ((from_ == owner) || (KV.get s.token_approvals id == some from_) ||
      approved_for_all_q s owner from_)

/-- add_token_to: refuses an existing token (TokenExists) and the null
destination (NotAllowed), then increments the destination balance with
checked_add (a get miss starts the count at 1) and records ownership. -/
def add_token_to (s : Erc721) (to_ : AccountId) (id : TokenId) : Outcome :=
  if KV.contains s.token_owner id then .err .TokenExists s
  else if to_ = nullAccount then .err .NotAllowed s
  else
    match KV.get s.owned_tokens_count to_ with
    | some c =>
      match checkedAdd c 1 with
      | some count =>
        .ok { s with
          owned_tokens_count := KV.insert s.owned_tokens_count to_ count,
          token_owner := KV.insert s.token_owner id to_ }
      | none => .panic
    | none =>
      .ok { s with
        owned_tokens_count := KV.insert s.owned_tokens_count to_ 1,
        token_owner := KV.insert s.token_owner id to_ }

/-- remove_token_from: requires the token to exist (TokenNotFound) and a
balance entry for from (CannotFetchValue), decrements it with checked_sub
(unwrap: panic on underflow) and removes the ownership entry. -/
def remove_token_from (s : Erc721) (from_ : AccountId) (id : TokenId) : Outcome :=
  if KV.contains s.token_owner id then
    match KV.get s.owned_tokens_count from_ with
    | none => .err .CannotFetchValue s
    | some c =>
      match checkedSub c 1 with
      | none => .panic
      | some count =>
        .ok { s with
          owned_tokens_count := KV.insert s.owned_tokens_count from_ count,
          token_owner := KV.remove s.token_owner id }
  else .err .TokenNotFound s

/-- clear_approval. -/
def clear_approval (s : Erc721) (id : TokenId) : Erc721 :=
  { s with token_approvals := KV.remove s.token_approvals id }

/-- transfer_token_from: existence, authorization, then from-equals-owner
checks, then clear the approval, remove from the owner and add to the
destination. -/
def transfer_token_from (s : Erc721) (caller from_ to_ : AccountId)
    (id : TokenId) : Outcome :=
  match owner_of s id with
  | none => .err .TokenNotFound s
  | some owner =>
    if approved_or_owner s caller id owner then
      if owner = from_ then
        match remove_token_from (clear_approval s id) from_ id with
        | .ok s2 =>
          match add_token_to s2 to_ id with
          | .ok s3 => .ok s3
          | .err e s3 => .err e s3
          | .panic => .panic
        | .err e s2 => .err e s2
        | .panic => .panic
      else .err .NotOwner s
    else .err .NotApproved s

/-- approve_for_all: rejects self-approval, then inserts or removes the
(caller, to) operator entry. -/
def approve_for_all (s : Erc721) (caller to_ : AccountId) (approved : Bool) :
    Outcome :=
  if to_ = caller then .err .NotAllowed s
  else if approved then
    .ok { s with operator_approvals := KV.insert s.operator_approvals (caller, to_) () }
  else
    .ok { s with operator_approvals := KV.remove s.operator_approvals (caller, to_) }

/-- approve_for: existence, owner-or-operator authorization, non-null target,
and no active approval (CannotInsert), then records the approval. -/
def approve_for (s : Erc721) (caller to_ : AccountId) (id : TokenId) : Outcome :=
  match owner_of s id with
  | none => .err .TokenNotFound s
  | some owner =>
    if (owner == caller) || approved_for_all_q s owner caller then
      if to_ = nullAccount then .err .NotAllowed s
      else if KV.contains s.token_approvals id then .err .CannotInsert s
      else .ok { s with token_approvals := KV.insert s.token_approvals id to_ }
    else .err .NotAllowed s

/-- mint: add_token_to the caller then store the URI. -/
def mint (s : Erc721) (caller : AccountId) (id : TokenId) (url : TokenURI) :
    Outcome :=
  match add_token_to s caller id with
  | .ok s1 => .ok { s1 with token_uris := KV.insert s1.token_uris id url }
  | .err e s1 => .err e s1
  | .panic => .panic

/-- burn: existence and literal-owner checks, then decrement the balance
(CannotFetchValue on a missing entry, panic on underflow) and remove the
ownership and URI entries.  The token approval entry is not touched. -/
def burn (s : Erc721) (caller : AccountId) (id : TokenId) : Outcome :=
  match KV.get s.token_owner id with
  | none => .err .TokenNotFound s
  | some owner =>
    if owner = caller then
      match KV.get s.owned_tokens_count caller with
      | none => .err .CannotFetchValue s
      | some c =>
        match checkedSub c 1 with
        | none => .panic
        | some count =>
          .ok { s with
            owned_tokens_count := KV.insert s.owned_tokens_count caller count,
            token_owner := KV.remove s.token_owner id,
            token_uris := KV.remove s.token_uris id }
    else .err .NotOwner s

/-- The public mutating entry points of the contract. -/
inductive Op where
  | mint (caller : AccountId) (id : TokenId) (url : TokenURI)
  | burn (caller : AccountId) (id : TokenId)
  | approve (caller to_ : AccountId) (id : TokenId)
  | setApprovalForAll (caller to_ : AccountId) (approved : Bool)
  | transfer (caller to_ : AccountId) (id : TokenId)
  | transferFrom (caller from_ to_ : AccountId) (id : TokenId)

/-- Run one public entry point; transfer is transfer_from with from equal to
the caller, exactly as in the source. -/
def runOp (op : Op) (s : Erc721) : Outcome :=
  match op with
  | .mint caller id url => mint s caller id url
  | .burn caller id => burn s caller id
  | .approve caller to_ id => approve_for s caller to_ id
  | .setApprovalForAll caller to_ approved => approve_for_all s caller to_ approved
  | .transfer caller to_ id => transfer_token_from s caller caller to_ id
  | .transferFrom caller from_ to_ id => transfer_token_from s caller from_ to_ id

/-- One committed (successful) operation. -/
def Steps (s s' : Erc721) : Prop := ∃ op : Op, runOp op s = .ok s'

/-- States reachable from the fresh contract by committed operations. -/
def Reachable (s : Erc721) : Prop :=
  Relation.ReflTransGen Steps Erc721.new s

/-- Number of tokens whose ownership entry is the given principal. -/
def ownedCount (s : Erc721) (p : AccountId) : Nat :=
  KV.valCount s.token_owner p

/-- Whether an entry point is transfer or transfer_from. -/
def isTransferLike : Op → Bool
  | .transfer _ _ _ => true
  | .transferFrom _ _ _ _ => true
  | _ => false

/-! ## Concrete states used by counterexamples and witnesses -/

/-- State after mint by principal 1 of token 1 with URI u from the fresh
contract. -/
def mintedState : Erc721 := ⟨[(1, 1)], [], [(1, 1)], [], [(1, "u")]⟩

/-- mintedState with token 1 approved to principal 2 by the owner. -/
def approvedState : Erc721 := ⟨[(1, 1)], [(1, 2)], [(1, 1)], [], [(1, "u")]⟩

/-- Partial state left behind by a transfer of token 1 towards the null
principal from mintedState: approval cleared, owner entry removed, source
balance decremented, URI entry still present. -/
def nullDestFailState : Erc721 := ⟨[], [], [(1, 0)], [], [(1, "u")]⟩

/-- State after burning token 1 from approvedState: the approval entry for
the burnt token is left in place by the code. -/
def burnedStaleState : Erc721 := ⟨[], [(1, 2)], [(1, 0)], [], []⟩

/-- State after principal 3 re-mints token 1 with URI v on top of
burnedStaleState: the stale approval to principal 2 is still there. -/
def remintedState : Erc721 := ⟨[(1, 3)], [(1, 2)], [(3, 1), (1, 0)], [], [(1, "v")]⟩

/-- Reachable state recording the null principal as an operator. -/
def nullOperatorState : Erc721 := ⟨[], [], [], [((1, 0), ())], []⟩

/-- State after transferring token 1 from principal 1 to principal 2 in
mintedState. -/
def afterTransferState : Erc721 := ⟨[(1, 2)], [], [(2, 1), (1, 0)], [], [(1, "u")]⟩

/-- Broken state giving principal 1 a balance entry already at the u32
maximum. -/
def maxBalanceState : Erc721 := ⟨[], [], [(1, u32Max)], [], []⟩


/-- Owner map has distinct keys and the materialized balances agree with the
number of ownership entries per principal. -/
def OCInv (s : Erc721) : Prop :=
  KV.nodupKeys s.token_owner ∧ ∀ p, balance_of s p = ownedCount s p

/-- The full invariant: balance bookkeeping, no null owner, no null approval
target, and token existence agreeing between the owner and URI maps. -/
def LedgerInv (s : Erc721) : Prop :=
  OCInv s ∧
    (∀ t a, KV.get s.token_owner t = some a → a ≠ nullAccount) ∧
    (∀ t a, KV.get s.token_approvals t = some a → a ≠ nullAccount) ∧
    (∀ t, KV.contains s.token_owner t = KV.contains s.token_uris t)


/-! ## Lookup lemmas for the association-list maps -/

theorem KV.get_insert_self {α β : Type} [DecidableEq α] (m : List (α × β))
    (k : α) (v : β) : KV.get (KV.insert m k v) k = some v := by
  simp [KV.insert, KV.get]

theorem KV.get_remove_self {α β : Type} [DecidableEq α] (m : List (α × β))
    (k : α) : KV.get (KV.remove m k) k = none := by
  induction m with
  | nil => simp [KV.remove, KV.get]
  | cons kv rest ih =>
    by_cases h : kv.1 = k <;> simp [KV.remove, KV.get, h, ih]

theorem KV.get_remove_ne {α β : Type} [DecidableEq α] {m : List (α × β)}
    {k k' : α} (h : k' ≠ k) : KV.get (KV.remove m k) k' = KV.get m k' := by
  induction m with
  | nil => simp [KV.remove]
  | cons kv rest ih =>
    have hne : ¬ k = k' := fun e => h e.symm
    by_cases hk : kv.1 = k
    · simp [KV.remove, KV.get, hk, hne, ih]
    · by_cases hk' : kv.1 = k' <;> simp [KV.remove, KV.get, hk, hk', h, ih]

theorem KV.get_insert_ne {α β : Type} [DecidableEq α] {m : List (α × β)}
    {k k' : α} {v : β} (h : k' ≠ k) :
    KV.get (KV.insert m k v) k' = KV.get m k' := by
  have : k ≠ k' := fun e => h e.symm
  simp [KV.insert, KV.get, this, KV.get_remove_ne h]

theorem KV.remove_of_get_none {α β : Type} [DecidableEq α] {m : List (α × β)}
    {k : α} (h : KV.get m k = none) : KV.remove m k = m := by
  induction m with
  | nil => simp [KV.remove]
  | cons kv rest ih =>
    by_cases hk : kv.1 = k
    · simp [KV.get, hk] at h
    · simp [KV.get, hk] at h
      simp [KV.remove, hk, ih h]

theorem KV.get_remove_eq_some {α β : Type} [DecidableEq α] {m : List (α × β)}
    {k t : α} {a : β} (h : KV.get (KV.remove m k) t = some a) :
    KV.get m t = some a := by
  by_cases ht : t = k
  · subst ht; rw [KV.get_remove_self] at h; exact absurd h (by simp)
  · rwa [KV.get_remove_ne ht] at h

theorem KV.get_insert_eq_some {α β : Type} [DecidableEq α] {m : List (α × β)}
    {k t : α} {v a : β} (h : KV.get (KV.insert m k v) t = some a) :
    (t = k ∧ a = v) ∨ (t ≠ k ∧ KV.get m t = some a) := by
  by_cases ht : t = k
  · subst ht; rw [KV.get_insert_self] at h
    exact Or.inl ⟨rfl, (Option.some_injective _ h).symm⟩
  · rw [KV.get_insert_ne ht] at h; exact Or.inr ⟨ht, h⟩

theorem KV.contains_insert_self {α β : Type} [DecidableEq α]
    (m : List (α × β)) (k : α) (v : β) :
    KV.contains (KV.insert m k v) k = true := by
  simp [KV.contains, KV.get_insert_self]

theorem KV.contains_insert_ne {α β : Type} [DecidableEq α] {m : List (α × β)}
    {k k' : α} {v : β} (h : k' ≠ k) :
    KV.contains (KV.insert m k v) k' = KV.contains m k' := by
  simp [KV.contains, KV.get_insert_ne h]

theorem KV.contains_remove_self {α β : Type} [DecidableEq α]
    (m : List (α × β)) (k : α) : KV.contains (KV.remove m k) k = false := by
  simp [KV.contains, KV.get_remove_self]

theorem KV.contains_remove_ne {α β : Type} [DecidableEq α] {m : List (α × β)}
    {k k' : α} (h : k' ≠ k) :
    KV.contains (KV.remove m k) k' = KV.contains m k' := by
  simp [KV.contains, KV.get_remove_ne h]

theorem KV.contains_false_iff {α β : Type} [DecidableEq α] {m : List (α × β)}
    {k : α} : KV.contains m k = false ↔ KV.get m k = none := by
  unfold KV.contains
  cases h : KV.get m k <;> simp

theorem KV.contains_true_iff {α β : Type} [DecidableEq α] {m : List (α × β)}
    {k : α} : KV.contains m k = true ↔ ∃ v, KV.get m k = some v := by
  simp [KV.contains, Option.isSome_iff_exists]

/-! ## Key-distinctness and counting lemmas -/

theorem KV.remove_sublist {α β : Type} [DecidableEq α] (m : List (α × β))
    (k : α) : List.Sublist (KV.remove m k) m := by
  induction m with
  | nil => simp [KV.remove]
  | cons kv rest ih =>
    by_cases h : kv.1 = k
    · simp only [KV.remove, if_pos h]
      exact ih.cons kv
    · simp only [KV.remove, if_neg h]
      exact ih.cons₂ kv

theorem KV.nodupKeys_remove {α β : Type} [DecidableEq α] {m : List (α × β)}
    (k : α) (h : KV.nodupKeys m) : KV.nodupKeys (KV.remove m k) :=
  List.Nodup.sublist (List.Sublist.map Prod.fst (KV.remove_sublist m k)) h

theorem KV.key_not_mem_remove {α β : Type} [DecidableEq α] (m : List (α × β))
    (k : α) : k ∉ (KV.remove m k).map Prod.fst := by
  induction m with
  | nil => simp [KV.remove]
  | cons kv rest ih =>
    by_cases h : kv.1 = k
    · simpa [KV.remove, h] using ih
    · simp [KV.remove, h, ih]
      exact fun e => h e.symm

theorem KV.nodupKeys_insert {α β : Type} [DecidableEq α] {m : List (α × β)}
    (k : α) (v : β) (h : KV.nodupKeys m) :
    KV.nodupKeys (KV.insert m k v) := by
  unfold KV.nodupKeys KV.insert
  simp only [List.map_cons, List.nodup_cons]
  exact ⟨KV.key_not_mem_remove m k, KV.nodupKeys_remove k h⟩

theorem KV.get_eq_none_of_not_mem_keys {α β : Type} [DecidableEq α]
    {m : List (α × β)} {k : α} (h : k ∉ m.map Prod.fst) :
    KV.get m k = none := by
  induction m with
  | nil => simp [KV.get]
  | cons kv rest ih =>
    simp only [List.map_cons, List.mem_cons] at h
    push_neg at h
    have h1 : ¬ kv.1 = k := fun e => h.1 e.symm
    simp [KV.get, h1, ih h.2]

theorem KV.valCount_insert {α β : Type} [DecidableEq α] [DecidableEq β]
    (m : List (α × β)) (k : α) (v p : β) :
    KV.valCount (KV.insert m k v) p =
      (if v = p then 1 else 0) + KV.valCount (KV.remove m k) p := rfl

theorem KV.valCount_remove_of_get_some {α β : Type} [DecidableEq α]
    [DecidableEq β] {m : List (α × β)} {k : α} {v : β}
    (hn : KV.nodupKeys m) (h : KV.get m k = some v) (p : β) :
    KV.valCount m p = (if v = p then 1 else 0) + KV.valCount (KV.remove m k) p := by
  induction m with
  | nil => simp [KV.get] at h
  | cons kv rest ih =>
    unfold KV.nodupKeys at hn
    simp only [List.map_cons, List.nodup_cons] at hn
    by_cases hk : kv.1 = k
    · simp only [KV.get, if_pos hk] at h
      have hv : v = kv.2 := (Option.some_injective _ h).symm
      have hrest : KV.get rest k = none := by
        apply KV.get_eq_none_of_not_mem_keys
        rw [← hk]; exact hn.1
      simp [KV.remove, hk, KV.remove_of_get_none hrest, KV.valCount, hv]
    · simp only [KV.get, if_neg hk] at h
      have := ih (hn.2) h
      simp only [KV.remove, if_neg hk, KV.valCount]
      omega

theorem KV.valCount_remove_of_get_none {α β : Type} [DecidableEq α]
    [DecidableEq β] {m : List (α × β)} {k : α}
    (h : KV.get m k = none) (p : β) :
    KV.valCount (KV.remove m k) p = KV.valCount m p := by
  rw [KV.remove_of_get_none h]

/-! ## Success- and failure-shape lemmas for the operations -/

theorem checkedAdd_one_eq_some {c count : Nat} (h : checkedAdd c 1 = some count) :
    count = c + 1 := by
  unfold checkedAdd at h
  split at h
  · simpa using h.symm
  · simp at h

theorem checkedSub_one_eq_some {c count : Nat} (h : checkedSub c 1 = some count) :
    count = c - 1 ∧ 1 ≤ c := by
  unfold checkedSub at h
  split at h
  · simp at h
  · next hge =>
    have := h.symm
    simp only [Option.some.injEq] at this
    omega

theorem add_ok_spec {s s' : Erc721} {to_ : AccountId} {id : TokenId}
    (h : add_token_to s to_ id = .ok s') :
    KV.contains s.token_owner id = false ∧ to_ ≠ nullAccount ∧
      s' = { s with
        owned_tokens_count :=
          KV.insert s.owned_tokens_count to_ (balance_of s to_ + 1),
        token_owner := KV.insert s.token_owner id to_ } := by
  by_cases h1 : KV.contains s.token_owner id = true
  · simp [add_token_to, h1] at h
  · have h1f : KV.contains s.token_owner id = false := by simpa using h1
    by_cases h2 : to_ = nullAccount
    · simp [add_token_to, h1f, h2] at h
    · cases hc : KV.get s.owned_tokens_count to_ with
      | none =>
        simp [add_token_to, h1f, h2, hc] at h
        refine ⟨h1f, h2, ?_⟩
        rw [← h]
        simp [balance_of, balance_of_or_zero, hc]
      | some c =>
        cases hadd : checkedAdd c 1 with
        | none => simp [add_token_to, h1f, h2, hc, hadd] at h
        | some count =>
          have hcount : count = c + 1 := checkedAdd_one_eq_some hadd
          simp [add_token_to, h1f, h2, hc, hadd] at h
          refine ⟨h1f, h2, ?_⟩
          rw [← h]
          simp [balance_of, balance_of_or_zero, hc, hcount]

theorem add_err_spec {s s' : Erc721} {to_ : AccountId} {id : TokenId}
    {e : Error} (h : add_token_to s to_ id = .err e s') :
    s' = s ∧ (e = .TokenExists ∨ e = .NotAllowed) := by
  by_cases h1 : KV.contains s.token_owner id = true
  · simp [add_token_to, h1] at h
    exact ⟨h.2.symm, Or.inl h.1.symm⟩
  · have h1f : KV.contains s.token_owner id = false := by simpa using h1
    by_cases h2 : to_ = nullAccount
    · simp [add_token_to, h1f, h2] at h
      exact ⟨h.2.symm, Or.inr h.1.symm⟩
    · cases hc : KV.get s.owned_tokens_count to_ with
      | none => simp [add_token_to, h1f, h2, hc] at h
      | some c =>
        cases hadd : checkedAdd c 1 with
        | none => simp [add_token_to, h1f, h2, hc, hadd] at h
        | some count => simp [add_token_to, h1f, h2, hc, hadd] at h

theorem remove_ok_spec {s s' : Erc721} {from_ : AccountId} {id : TokenId}
    (h : remove_token_from s from_ id = .ok s') :
    KV.contains s.token_owner id = true ∧
      ∃ c, KV.get s.owned_tokens_count from_ = some c ∧ 1 ≤ c ∧
        s' = { s with
          owned_tokens_count := KV.insert s.owned_tokens_count from_ (c - 1),
          token_owner := KV.remove s.token_owner id } := by
  by_cases h1 : KV.contains s.token_owner id = true
  · cases hc : KV.get s.owned_tokens_count from_ with
    | none => simp [remove_token_from, h1, hc] at h
    | some c =>
      cases hsub : checkedSub c 1 with
      | none => simp [remove_token_from, h1, hc, hsub] at h
      | some count =>
        obtain ⟨hcount, hge⟩ := checkedSub_one_eq_some hsub
        simp [remove_token_from, h1, hc, hsub] at h
        rw [hcount] at h
        exact ⟨h1, c, rfl, hge, h.symm⟩
  · have h1f : KV.contains s.token_owner id = false := by simpa using h1
    simp [remove_token_from, h1f] at h

theorem remove_err_spec {s s' : Erc721} {from_ : AccountId} {id : TokenId}
    {e : Error} (h : remove_token_from s from_ id = .err e s') :
    s' = s ∧
      (e = .TokenNotFound ∧ KV.contains s.token_owner id = false ∨
        e = .CannotFetchValue) := by
  by_cases h1 : KV.contains s.token_owner id = true
  · cases hc : KV.get s.owned_tokens_count from_ with
    | none =>
      simp [remove_token_from, h1, hc] at h
      exact ⟨h.2.symm, Or.inr h.1.symm⟩
    | some c =>
      cases hsub : checkedSub c 1 with
      | none => simp [remove_token_from, h1, hc, hsub] at h
      | some count => simp [remove_token_from, h1, hc, hsub] at h
  · have h1f : KV.contains s.token_owner id = false := by simpa using h1
    simp [remove_token_from, h1f] at h
    exact ⟨h.2.symm, Or.inl ⟨h.1.symm, h1f⟩⟩

theorem mint_ok_spec {s s' : Erc721} {caller : AccountId} {id : TokenId}
    {url : TokenURI} (h : mint s caller id url = .ok s') :
    ∃ s1, add_token_to s caller id = .ok s1 ∧
      s' = { s1 with token_uris := KV.insert s1.token_uris id url } := by
  unfold mint at h
  cases hadd : add_token_to s caller id with
  | ok s1 =>
    rw [hadd] at h
    simp at h
    exact ⟨s1, rfl, h.symm⟩
  | err e s1 => rw [hadd] at h; simp at h
  | panic => rw [hadd] at h; simp at h

theorem mint_err_spec {s s' : Erc721} {caller : AccountId} {id : TokenId}
    {url : TokenURI} {e : Error} (h : mint s caller id url = .err e s') :
    s' = s ∧ (e = .TokenExists ∨ e = .NotAllowed) := by
  unfold mint at h
  cases hadd : add_token_to s caller id with
  | ok s1 => rw [hadd] at h; simp at h
  | err e1 s1 =>
    rw [hadd] at h
    simp at h
    obtain ⟨he, hs⟩ := h
    subst he; subst hs
    exact add_err_spec hadd
  | panic => rw [hadd] at h; simp at h

theorem burn_ok_spec {s s' : Erc721} {caller : AccountId} {id : TokenId}
    (h : burn s caller id = .ok s') :
    KV.get s.token_owner id = some caller ∧
      ∃ c, KV.get s.owned_tokens_count caller = some c ∧ 1 ≤ c ∧
        s' = { s with
          owned_tokens_count := KV.insert s.owned_tokens_count caller (c - 1),
          token_owner := KV.remove s.token_owner id,
          token_uris := KV.remove s.token_uris id } := by
  unfold burn at h
  cases hown : KV.get s.token_owner id with
  | none => rw [hown] at h; simp at h
  | some owner =>
    rw [hown] at h
    by_cases heq : owner = caller
    · subst heq
      cases hc : KV.get s.owned_tokens_count owner with
      | none => simp [hc] at h
      | some c =>
        cases hsub : checkedSub c 1 with
        | none => simp [hc, hsub] at h
        | some count =>
          obtain ⟨hcount, hge⟩ := checkedSub_one_eq_some hsub
          simp [hc, hsub] at h
          rw [hcount] at h
          exact ⟨rfl, c, rfl, hge, h.symm⟩
    · simp [heq] at h

theorem burn_err_spec {s s' : Erc721} {caller : AccountId} {id : TokenId}
    {e : Error} (h : burn s caller id = .err e s') : s' = s := by
  unfold burn at h
  cases hown : KV.get s.token_owner id with
  | none => rw [hown] at h; simp at h; exact h.2.symm
  | some owner =>
    rw [hown] at h
    by_cases heq : owner = caller
    · subst heq
      cases hc : KV.get s.owned_tokens_count owner with
      | none => simp [hc] at h; exact h.2.symm
      | some c =>
        cases hsub : checkedSub c 1 with
        | none => simp [hc, hsub] at h
        | some count => simp [hc, hsub] at h
    · simp [heq] at h; exact h.2.symm

theorem approve_ok_spec {s s' : Erc721} {caller to_ : AccountId} {id : TokenId}
    (h : approve_for s caller to_ id = .ok s') :
    ∃ owner, owner_of s id = some owner ∧
      ((owner == caller) || approved_for_all_q s owner caller) = true ∧
      to_ ≠ nullAccount ∧ KV.contains s.token_approvals id = false ∧
      s' = { s with token_approvals := KV.insert s.token_approvals id to_ } := by
  unfold approve_for at h
  cases hown : owner_of s id with
  | none => rw [hown] at h; simp at h
  | some owner =>
    rw [hown] at h
    by_cases hauth : ((owner == caller) || approved_for_all_q s owner caller) = true
    · by_cases hto : to_ = nullAccount
      · simp [hauth, hto] at h
      · by_cases happ : KV.contains s.token_approvals id = true
        · simp [hauth, hto, happ] at h
        · have happf : KV.contains s.token_approvals id = false := by simpa using happ
          simp [hauth, hto, happf] at h
          exact ⟨owner, rfl, hauth, hto, happf, h.symm⟩
    · simp [hauth] at h

theorem approve_err_spec {s s' : Erc721} {caller to_ : AccountId} {id : TokenId}
    {e : Error} (h : approve_for s caller to_ id = .err e s') : s' = s := by
  unfold approve_for at h
  cases hown : owner_of s id with
  | none => rw [hown] at h; simp at h; exact h.2.symm
  | some owner =>
    rw [hown] at h
    by_cases hauth : ((owner == caller) || approved_for_all_q s owner caller) = true
    · by_cases hto : to_ = nullAccount
      · simp [hauth, hto] at h; exact h.2.symm
      · by_cases happ : KV.contains s.token_approvals id = true
        · simp [hauth, hto, happ] at h; exact h.2.symm
        · have happf : KV.contains s.token_approvals id = false := by simpa using happ
          simp [hauth, hto, happf] at h
    · simp [hauth] at h; exact h.2.symm

theorem approve_for_all_ok_spec {s s' : Erc721} {caller to_ : AccountId}
    {approved : Bool} (h : approve_for_all s caller to_ approved = .ok s') :
    to_ ≠ caller ∧
      (approved = true ∧
          s' = { s with operator_approvals := KV.insert s.operator_approvals (caller, to_) () } ∨
        approved = false ∧
          s' = { s with operator_approvals := KV.remove s.operator_approvals (caller, to_) }) := by
  unfold approve_for_all at h
  by_cases hself : to_ = caller
  · simp [hself] at h
  · rw [if_neg hself] at h
    cases approved with
    | true => simp at h; exact ⟨hself, Or.inl ⟨rfl, h.symm⟩⟩
    | false => simp at h; exact ⟨hself, Or.inr ⟨rfl, h.symm⟩⟩

theorem approve_for_all_err_spec {s s' : Erc721} {caller to_ : AccountId}
    {approved : Bool} {e : Error}
    (h : approve_for_all s caller to_ approved = .err e s') : s' = s := by
  unfold approve_for_all at h
  by_cases hself : to_ = caller
  · simp [hself] at h; exact h.2.symm
  · rw [if_neg hself] at h
    cases approved with
    | true => simp at h
    | false => simp at h

theorem transfer_ok_spec {s s' : Erc721} {caller from_ to_ : AccountId}
    {id : TokenId} (h : transfer_token_from s caller from_ to_ id = .ok s') :
    owner_of s id = some from_ ∧
      approved_or_owner s caller id from_ = true ∧
      ∃ s2, remove_token_from (clear_approval s id) from_ id = .ok s2 ∧
        add_token_to s2 to_ id = .ok s' := by
  unfold transfer_token_from at h
  cases hown : owner_of s id with
  | none => rw [hown] at h; simp at h
  | some owner =>
    rw [hown] at h
    by_cases hauth : approved_or_owner s caller id owner = true
    · by_cases heq : owner = from_
      · subst heq
        cases hrem : remove_token_from (clear_approval s id) owner id with
        | ok s2 =>
          rw [hrem] at h
          simp [hauth] at h
          cases hadd : add_token_to s2 to_ id with
          | ok s3 =>
            rw [hadd] at h
            simp at h
            subst h
            exact ⟨rfl, hauth, s2, rfl, hadd⟩
          | err e s3 => rw [hadd] at h; simp at h
          | panic => rw [hadd] at h; simp at h
        | err e s2 => rw [hrem] at h; simp [hauth] at h
        | panic => rw [hrem] at h; simp [hauth] at h
      · simp [hauth, heq] at h
    · simp [hauth] at h

theorem transfer_err_spec {s s' : Erc721} {caller from_ to_ : AccountId}
    {id : TokenId} {e : Error}
    (h : transfer_token_from s caller from_ to_ id = .err e s')
    (hk : e = .TokenNotFound ∨ e = .NotApproved ∨ e = .NotOwner) :
    s' = s := by
  unfold transfer_token_from at h
  cases hown : owner_of s id with
  | none => rw [hown] at h; simp at h; exact h.2.symm
  | some owner =>
    rw [hown] at h
    by_cases hauth : approved_or_owner s caller id owner = true
    · by_cases heq : owner = from_
      · subst heq
        cases hrem : remove_token_from (clear_approval s id) owner id with
        | ok s2 =>
          rw [hrem] at h
          simp [hauth] at h
          cases hadd : add_token_to s2 to_ id with
          | ok s3 => rw [hadd] at h; simp at h
          | err e1 s3 =>
            rw [hadd] at h
            simp at h
            obtain ⟨he, _⟩ := h
            obtain ⟨_, he1⟩ := add_err_spec hadd
            subst he
            rcases he1 with h1 | h1 <;> rw [h1] at hk <;> simp at hk
          | panic => rw [hadd] at h; simp at h
        | err e1 s2 =>
          rw [hrem] at h
          simp [hauth] at h
          obtain ⟨he, _⟩ := h
          obtain ⟨_, he1⟩ := remove_err_spec hrem
          subst he
          rcases he1 with ⟨h1, hcont⟩ | h1
          · have hcont2 : KV.contains (clear_approval s id).token_owner id = true := by
              simp [clear_approval, KV.contains_true_iff]
              exact ⟨owner, hown⟩
            rw [hcont2] at hcont
            simp at hcont
          · rw [h1] at hk; simp at hk
        | panic => rw [hrem] at h; simp [hauth] at h
      · simp [hauth, heq] at h; exact h.2.symm
    · simp [hauth] at h; exact h.2.symm

/-! ## The ledger invariant over reachable states -/

theorem oc_add {s s' : Erc721} {to_ : AccountId} {id : TokenId}
    (hoc : OCInv s) (h : add_token_to s to_ id = .ok s') : OCInv s' := by
  obtain ⟨hfresh, hto, hs⟩ := add_ok_spec h
  have hgnone : KV.get s.token_owner id = none := KV.contains_false_iff.mp hfresh
  obtain ⟨hnd, hbal⟩ := hoc
  subst hs
  refine ⟨KV.nodupKeys_insert id to_ hnd, fun p => ?_⟩
  have hb := hbal p
  simp [balance_of, balance_of_or_zero, ownedCount] at hb
  by_cases hp : p = to_
  · subst hp
    simp [balance_of, balance_of_or_zero, ownedCount, KV.get_insert_self,
      KV.valCount_insert, KV.remove_of_get_none hgnone]
    omega
  · have hp2 : ¬ to_ = p := fun e => hp e.symm
    simp [balance_of, balance_of_or_zero, ownedCount, KV.get_insert_ne hp,
      KV.valCount_insert, KV.remove_of_get_none hgnone, hp2]
    omega

theorem oc_remove {s s' : Erc721} {from_ : AccountId} {id : TokenId}
    (hoc : OCInv s) (hown : KV.get s.token_owner id = some from_)
    (h : remove_token_from s from_ id = .ok s') : OCInv s' := by
  obtain ⟨hcont, c, hc, hge, hs⟩ := remove_ok_spec h
  obtain ⟨hnd, hbal⟩ := hoc
  subst hs
  refine ⟨KV.nodupKeys_remove id hnd, fun p => ?_⟩
  have hb := hbal p
  have hcnt := KV.valCount_remove_of_get_some hnd hown p
  by_cases hp : p = from_
  · subst hp
    simp [balance_of, balance_of_or_zero, ownedCount, hc] at hb
    simp at hcnt
    simp [balance_of, balance_of_or_zero, ownedCount, KV.get_insert_self]
    omega
  · have hp2 : ¬ from_ = p := fun e => hp e.symm
    simp [balance_of, balance_of_or_zero, ownedCount] at hb
    simp [hp2] at hcnt
    simp [balance_of, balance_of_or_zero, ownedCount, KV.get_insert_ne hp]
    omega

theorem oc_burn {s s' : Erc721} {caller : AccountId} {id : TokenId}
    (hoc : OCInv s) (h : burn s caller id = .ok s') : OCInv s' := by
  obtain ⟨hown, c, hc, hge, hs⟩ := burn_ok_spec h
  obtain ⟨hnd, hbal⟩ := hoc
  subst hs
  refine ⟨KV.nodupKeys_remove id hnd, fun p => ?_⟩
  have hb := hbal p
  have hcnt := KV.valCount_remove_of_get_some hnd hown p
  by_cases hp : p = caller
  · subst hp
    simp [balance_of, balance_of_or_zero, ownedCount, hc] at hb
    simp at hcnt
    simp [balance_of, balance_of_or_zero, ownedCount, KV.get_insert_self]
    omega
  · have hp2 : ¬ caller = p := fun e => hp e.symm
    simp [balance_of, balance_of_or_zero, ownedCount] at hb
    simp [hp2] at hcnt
    simp [balance_of, balance_of_or_zero, ownedCount, KV.get_insert_ne hp]
    omega

theorem inv_mint {s s' : Erc721} {caller : AccountId} {id : TokenId}
    {url : TokenURI} (hinv : LedgerInv s) (h : mint s caller id url = .ok s') :
    LedgerInv s' := by
  obtain ⟨hoc, hown0, happ0, huri0⟩ := hinv
  obtain ⟨s1, hadd, hs⟩ := mint_ok_spec h
  have hocs1 := oc_add hoc hadd
  obtain ⟨hfresh, hcal, hs1⟩ := add_ok_spec hadd
  subst hs
  subst hs1
  refine ⟨⟨hocs1.1, fun p => hocs1.2 p⟩, ?_, ?_, ?_⟩
  · intro t a hget
    rcases KV.get_insert_eq_some hget with ⟨-, ha⟩ | ⟨-, hold⟩
    · exact ha ▸ hcal
    · exact hown0 t a hold
  · intro t a hget
    exact happ0 t a hget
  · intro t
    by_cases ht : t = id
    · subst ht
      simp [KV.contains_insert_self]
    · simp [KV.contains_insert_ne ht]
      exact huri0 t

theorem inv_burn {s s' : Erc721} {caller : AccountId} {id : TokenId}
    (hinv : LedgerInv s) (h : burn s caller id = .ok s') : LedgerInv s' := by
  obtain ⟨hoc, hown0, happ0, huri0⟩ := hinv
  have hocs1 := oc_burn hoc h
  obtain ⟨hown, c, hc, hge, hs⟩ := burn_ok_spec h
  subst hs
  refine ⟨⟨hocs1.1, fun p => hocs1.2 p⟩, ?_, ?_, ?_⟩
  · intro t a hget
    exact hown0 t a (KV.get_remove_eq_some hget)
  · intro t a hget
    exact happ0 t a hget
  · intro t
    by_cases ht : t = id
    · subst ht
      simp [KV.contains_remove_self]
    · simp [KV.contains_remove_ne ht]
      exact huri0 t

theorem inv_approve {s s' : Erc721} {caller to_ : AccountId} {id : TokenId}
    (hinv : LedgerInv s) (h : approve_for s caller to_ id = .ok s') :
    LedgerInv s' := by
  obtain ⟨hoc, hown0, happ0, huri0⟩ := hinv
  obtain ⟨owner, hown, hauth, hto, happ, hs⟩ := approve_ok_spec h
  subst hs
  refine ⟨⟨hoc.1, fun p => hoc.2 p⟩, hown0, ?_, huri0⟩
  intro t a hget
  rcases KV.get_insert_eq_some hget with ⟨-, ha⟩ | ⟨-, hold⟩
  · exact ha ▸ hto
  · exact happ0 t a hold

theorem inv_approve_for_all {s s' : Erc721} {caller to_ : AccountId}
    {approved : Bool} (hinv : LedgerInv s)
    (h : approve_for_all s caller to_ approved = .ok s') : LedgerInv s' := by
  obtain ⟨hoc, hown0, happ0, huri0⟩ := hinv
  obtain ⟨hself, hcase⟩ := approve_for_all_ok_spec h
  rcases hcase with ⟨-, hs⟩ | ⟨-, hs⟩ <;> subst hs <;>
    exact ⟨⟨hoc.1, fun p => hoc.2 p⟩, hown0, happ0, huri0⟩

theorem inv_transfer {s s' : Erc721} {caller from_ to_ : AccountId}
    {id : TokenId} (hinv : LedgerInv s)
    (h : transfer_token_from s caller from_ to_ id = .ok s') : LedgerInv s' := by
  obtain ⟨hoc, hown0, happ0, huri0⟩ := hinv
  obtain ⟨hown, hauth, s2, hrem, hadd⟩ := transfer_ok_spec h
  have hocs1 : OCInv (clear_approval s id) := ⟨hoc.1, fun p => hoc.2 p⟩
  have hown1 : KV.get (clear_approval s id).token_owner id = some from_ := hown
  have hocs2 := oc_remove hocs1 hown1 hrem
  have hocs3 := oc_add hocs2 hadd
  obtain ⟨hcont2, c, hc2, hge2, hs2⟩ := remove_ok_spec hrem
  obtain ⟨hfresh, hto, hs3⟩ := add_ok_spec hadd
  have e2own : s2.token_owner = KV.remove s.token_owner id := by
    rw [hs2]; simp [clear_approval]
  have e2app : s2.token_approvals = KV.remove s.token_approvals id := by
    rw [hs2]; simp [clear_approval]
  have e2uri : s2.token_uris = s.token_uris := by
    rw [hs2]; simp [clear_approval]
  subst hs3
  refine ⟨⟨hocs3.1, fun p => hocs3.2 p⟩, ?_, ?_, ?_⟩
  · intro t a hget
    rcases KV.get_insert_eq_some hget with ⟨-, ha⟩ | ⟨-, hold⟩
    · exact ha ▸ hto
    · rw [e2own] at hold
      exact hown0 t a (KV.get_remove_eq_some hold)
  · intro t a hget
    have hget2 : KV.get s2.token_approvals t = some a := hget
    rw [e2app] at hget2
    exact happ0 t a (KV.get_remove_eq_some hget2)
  · intro t
    by_cases ht : t = id
    · subst ht
      have h1 : KV.contains s.token_uris t = true := by
        rw [← huri0 t, KV.contains_true_iff]
        exact ⟨from_, hown⟩
      show KV.contains (KV.insert s2.token_owner t to_) t = KV.contains s2.token_uris t
      rw [KV.contains_insert_self, e2uri, h1]
    · show KV.contains (KV.insert s2.token_owner id to_) t = KV.contains s2.token_uris t
      rw [KV.contains_insert_ne ht, e2own, KV.contains_remove_ne ht, e2uri]
      exact huri0 t

/-- Every confirmed step preserves the ledger invariant. -/
theorem step_inv {s s' : Erc721} (hinv : LedgerInv s) (h : Steps s s') :
    LedgerInv s' := by
  obtain ⟨op, hop⟩ := h
  cases op with
  | mint caller id url => exact inv_mint hinv hop
  | burn caller id => exact inv_burn hinv hop
  | approve caller to_ id => exact inv_approve hinv hop
  | setApprovalForAll caller to_ approved => exact inv_approve_for_all hinv hop
  | transfer caller to_ id => exact inv_transfer hinv hop
  | transferFrom caller from_ to_ id => exact inv_transfer hinv hop

/-- The fresh contract satisfies the invariant. -/
theorem inv_new : LedgerInv Erc721.new := by
  refine ⟨⟨?_, fun p => ?_⟩, ?_, ?_, ?_⟩
  · simp [KV.nodupKeys, Erc721.new]
  · simp [balance_of, balance_of_or_zero, ownedCount, Erc721.new, KV.get, KV.valCount]
  · intro t a hget
    simp [Erc721.new, KV.get] at hget
  · intro t a hget
    simp [Erc721.new, KV.get] at hget
  · intro t
    simp [Erc721.new, KV.contains, KV.get]

/-- Every reachable state satisfies the ledger invariant. -/
theorem reachable_inv {s : Erc721} (h : Reachable s) : LedgerInv s := by
  induction h with
  | refl => exact inv_new
  | tail hst hstep ih => exact step_inv ih hstep

example : runOp (Op.mint 1 1 "u") Erc721.new = .ok mintedState := by decide

example : runOp (Op.approve 1 2 1) mintedState = .ok approvedState := by decide


/-! ## Claim C1 -/

/-- C1 counterexample: transfer_from with a null-principal destination from a
minted state fails with NotAllowed, but the state at the failure point is not
the starting state: the owner entry is gone and the balance was decremented,
so the claim that every failure leaves all mappings unchanged is false for
the raw operation bodies. -/
theorem c1_counterexample :
    transfer_token_from mintedState 1 1 nullAccount 1 =
      .err .NotAllowed nullDestFailState ∧
      nullDestFailState ≠ mintedState ∧
      owner_of nullDestFailState 1 = none ∧
      owner_of mintedState 1 = some 1 := by
  refine ⟨by decide, by decide, by decide, by decide⟩

/-- C1 amended: every failure of mint, burn, approve and
set_approval_for_all, and every transfer or transfer_from failure raised by
the precondition checks (TokenNotFound, NotApproved, NotOwner), leaves the
state unchanged; only the transfer failures raised after those checks (null
destination NotAllowed, missing balance CannotFetchValue) return a partially
mutated state, which the hosting runtime then discards by reverting. -/
theorem c1_amended (op : Op) (s s' : Erc721) (e : Error)
    (h : runOp op s = .err e s')
    (hk : isTransferLike op = false ∨
      e = .TokenNotFound ∨ e = .NotApproved ∨ e = .NotOwner) :
    s' = s := by
  cases op with
  | mint caller id url => exact (mint_err_spec h).1
  | burn caller id => exact burn_err_spec h
  | approve caller to_ id => exact approve_err_spec h
  | setApprovalForAll caller to_ approved => exact approve_for_all_err_spec h
  | transfer caller to_ id =>
    rcases hk with hk | hk
    · simp [isTransferLike] at hk
    · exact transfer_err_spec h hk
  | transferFrom caller from_ to_ id =>
    rcases hk with hk | hk
    · simp [isTransferLike] at hk
    · exact transfer_err_spec h hk

/-- C1 witness: a mint of an existing token fails with TokenExists and the
failure state is the starting state. -/
theorem c1_amended_witness :
    runOp (Op.mint 2 1 "v") mintedState = .err .TokenExists mintedState ∧
      mintedState = mintedState :=
  ⟨by decide, c1_amended (Op.mint 2 1 "v") mintedState mintedState .TokenExists
    (by decide) (Or.inl (by decide))⟩

/-! ## Claim C2 -/

/-- C2: the code contradicts the claim: burn does not clear the per-token
approval.  After mint by 1, approve to 2 and burn, the approval entry of the
burnt token is still present; after a re-mint of the same token by principal
3 the stale approval is still returned by get_approved instead of none. -/
theorem c2_burn_keeps_approval :
    runOp (Op.mint 1 1 "u") Erc721.new = .ok mintedState ∧
      runOp (Op.approve 1 2 1) mintedState = .ok approvedState ∧
      runOp (Op.burn 1 1) approvedState = .ok burnedStaleState ∧
      get_approved burnedStaleState 1 = some 2 ∧
      runOp (Op.mint 3 1 "v") burnedStaleState = .ok remintedState ∧
      owner_of remintedState 1 = some 3 ∧
      token_uri remintedState 1 = some "v" ∧
      get_approved remintedState 1 = some 2 := by
  refine ⟨by decide, by decide, by decide, by decide, by decide, by decide,
    by decide, by decide⟩

/-! ## Claim C3 -/

/-- C3 counterexample: set_approval_for_all accepts the null principal as the
operator (only self-approval is rejected), so one committed step from the
fresh contract reaches a state whose Operator-of key has the null principal
as operator component. -/
theorem c3_counterexample :
    Reachable nullOperatorState ∧
      is_approved_for_all nullOperatorState 1 nullAccount = true :=
  ⟨Relation.ReflTransGen.single
      ⟨Op.setApprovalForAll 1 nullAccount true, by decide⟩,
    by decide⟩

/-- C3 amended: in every reachable state the null principal never appears as
an Owner-of value nor as an Approved-for value; the operator component of an
Operator-of key can however be the null principal, because
set_approval_for_all rejects only a self-approval. -/
theorem c3_amended (s : Erc721) (h : Reachable s) :
    (∀ t a, KV.get s.token_owner t = some a → a ≠ nullAccount) ∧
      (∀ t a, KV.get s.token_approvals t = some a → a ≠ nullAccount) := by
  have hinv := reachable_inv h
  exact ⟨hinv.2.1, hinv.2.2.1⟩

/-- C3 witness: the owner recorded by a reachable mint is not the null
principal. -/
theorem c3_amended_witness :
    KV.get mintedState.token_owner 1 = some 1 ∧ (1 : AccountId) ≠ nullAccount :=
  ⟨by decide,
    (c3_amended mintedState
      (Relation.ReflTransGen.single ⟨Op.mint 1 1 "u", by decide⟩)).1 1 1
      (by decide)⟩

/-! ## Claim C4 -/

/-- C4 counterexample: from the reachable minted state, a transfer with a
null destination fails with NotAllowed after removing the owner entry, so the
state at the failure point has a URI entry for token 1 but no owner entry:
the owner-URI biconditional does not survive this failing operation. -/
theorem c4_counterexample :
    Reachable mintedState ∧
      transfer_token_from mintedState 1 1 nullAccount 1 =
        .err .NotAllowed nullDestFailState ∧
      KV.contains nullDestFailState.token_owner 1 = false ∧
      KV.contains nullDestFailState.token_uris 1 = true :=
  ⟨Relation.ReflTransGen.single ⟨Op.mint 1 1 "u", by decide⟩,
    by decide, by decide, by decide⟩

/-- C4 amended: in every reachable state a token id is present in Owner-of
exactly when it is present in URI-of; every committed operation preserves
this, and failures leave it intact except for the partial state of a transfer
to the null principal, which the host revert discards. -/
theorem c4_amended (s : Erc721) (h : Reachable s) (t : TokenId) :
    KV.contains s.token_owner t = KV.contains s.token_uris t :=
  (reachable_inv h).2.2.2 t

/-- C4 witness: the biconditional evaluated on the reachable minted state. -/
theorem c4_amended_witness :
    KV.contains mintedState.token_owner 1 = KV.contains mintedState.token_uris 1 :=
  c4_amended mintedState
    (Relation.ReflTransGen.single ⟨Op.mint 1 1 "u", by decide⟩) 1

/-! ## Claim C5 -/

/-- C5 counterexample: the null principal cannot mint even a fresh token (the
shared add step rejects it with NotAllowed although the token does not
exist), and a caller whose balance entry is already at the u32 maximum does
not succeed either: the checked_add unwrap panics. -/
theorem c5_counterexample :
    mint Erc721.new nullAccount 1 "u" = .err .NotAllowed Erc721.new ∧
      mint maxBalanceState 1 1 "u" = .panic := by
  refine ⟨by decide, by decide⟩

/-- C5 amended: mint returns a failure kind exactly when the token already
exists or the caller is the null principal; an existing token yields
TokenExists with the state unchanged; and every non-null caller whose
recorded balance is below the u32 maximum can mint any fresh token and is
recorded as its owner with the supplied URI. -/
theorem c5_amended (s : Erc721) (caller : AccountId) (id : TokenId)
    (url : TokenURI) :
    ((Outcome.errKind (mint s caller id url)).isSome = true ↔
        (KV.contains s.token_owner id = true ∨ caller = nullAccount)) ∧
      (KV.contains s.token_owner id = true →
        mint s caller id url = .err .TokenExists s) ∧
      (caller ≠ nullAccount → KV.contains s.token_owner id = false →
        balance_of s caller < u32Max →
        ∃ s', mint s caller id url = .ok s' ∧
          owner_of s' id = some caller ∧ token_uri s' id = some url) := by
  by_cases hc : KV.contains s.token_owner id = true
  · refine ⟨?_, ?_, ?_⟩
    · simp [mint, add_token_to, hc, Outcome.errKind]
    · intro _
      simp [mint, add_token_to, hc]
    · intro _ hfalse _
      rw [hc] at hfalse
      simp at hfalse
  · have hcf : KV.contains s.token_owner id = false := by simpa using hc
    by_cases h0 : caller = nullAccount
    · refine ⟨?_, ?_, ?_⟩
      · simp [mint, add_token_to, hcf, h0, Outcome.errKind]
      · intro htrue
        rw [hcf] at htrue
        simp at htrue
      · intro hne _ _
        exact absurd h0 hne
    · cases hcnt : KV.get s.owned_tokens_count caller with
      | none =>
        refine ⟨?_, ?_, ?_⟩
        · simp [mint, add_token_to, hcf, h0, hcnt, Outcome.errKind]
        · intro htrue
          rw [hcf] at htrue
          simp at htrue
        · intro _ _ _
          refine ⟨{ s with
            owned_tokens_count := KV.insert s.owned_tokens_count caller 1,
            token_owner := KV.insert s.token_owner id caller,
            token_uris := KV.insert s.token_uris id url }, ?_, ?_, ?_⟩
          · simp [mint, add_token_to, hcf, h0, hcnt]
          · show KV.get (KV.insert s.token_owner id caller) id = some caller
            exact KV.get_insert_self _ _ _
          · show KV.get (KV.insert s.token_uris id url) id = some url
            exact KV.get_insert_self _ _ _
      | some c =>
        cases hadd : checkedAdd c 1 with
        | some count =>
          refine ⟨?_, ?_, ?_⟩
          · simp [mint, add_token_to, hcf, h0, hcnt, hadd, Outcome.errKind]
          · intro htrue
            rw [hcf] at htrue
            simp at htrue
          · intro _ _ _
            refine ⟨{ s with
              owned_tokens_count := KV.insert s.owned_tokens_count caller count,
              token_owner := KV.insert s.token_owner id caller,
              token_uris := KV.insert s.token_uris id url }, ?_, ?_, ?_⟩
            · simp [mint, add_token_to, hcf, h0, hcnt, hadd]
            · show KV.get (KV.insert s.token_owner id caller) id = some caller
              exact KV.get_insert_self _ _ _
            · show KV.get (KV.insert s.token_uris id url) id = some url
              exact KV.get_insert_self _ _ _
        | none =>
          refine ⟨?_, ?_, ?_⟩
          · simp [mint, add_token_to, hcf, h0, hcnt, hadd, Outcome.errKind]
          · intro htrue
            rw [hcf] at htrue
            simp at htrue
          · intro _ _ hlt
            have hbal : balance_of s caller = c := by
              simp [balance_of, balance_of_or_zero, hcnt]
            unfold checkedAdd at hadd
            split at hadd
            · simp at hadd
            · next hgt =>
              rw [hbal] at hlt
              omega

/-- C5 witness: a fresh mint from the empty ledger succeeds with the caller
as owner, and a mint of an existing token fails with TokenExists leaving the
state unchanged. -/
theorem c5_amended_witness :
    (∃ s', mint Erc721.new 1 1 "u" = .ok s' ∧
        owner_of s' 1 = some 1 ∧ token_uri s' 1 = some "u") ∧
      mint mintedState 2 1 "v" = .err .TokenExists mintedState :=
  ⟨(c5_amended Erc721.new 1 1 "u").2.2 (by decide) (by decide) (by decide),
    (c5_amended mintedState 2 1 "v").2.1 (by decide)⟩

/-! ## Claim C6 -/

/-- C6 counterexample: a self-transfer (destination equal to the source)
succeeds, yet the source balance does not decrease by one: it is unchanged,
so the balance clauses of the claim fail when A equals B. -/
theorem c6_counterexample :
    transfer_token_from mintedState 1 1 1 1 = .ok mintedState ∧
      balance_of mintedState 1 = 1 ∧
      ¬ balance_of mintedState 1 = balance_of mintedState 1 - 1 := by
  refine ⟨by decide, by decide, by decide⟩

/-- C6 amended: for every successful transfer or transfer_from moving a token
between two distinct principals, after the call the destination owns the
token, the source balance is exactly one less, the destination balance is
exactly one more, and the per-token approval is gone; a self-transfer instead
leaves the balance unchanged. -/
theorem c6_amended (s s' : Erc721) (caller from_ to_ : AccountId)
    (id : TokenId)
    (hok : transfer_token_from s caller from_ to_ id = .ok s')
    (hne : from_ ≠ to_) :
    owner_of s' id = some to_ ∧
      balance_of s' from_ + 1 = balance_of s from_ ∧
      balance_of s' to_ = balance_of s to_ + 1 ∧
      get_approved s' id = none := by
  obtain ⟨hown, hauth, s2, hrem, hadd⟩ := transfer_ok_spec hok
  obtain ⟨hcont2, c, hc2, hge2, hs2⟩ := remove_ok_spec hrem
  obtain ⟨hfresh, hto, hs3⟩ := add_ok_spec hadd
  have hne2 : to_ ≠ from_ := fun e => hne e.symm
  have e2app : s2.token_approvals = KV.remove s.token_approvals id := by
    rw [hs2]; simp [clear_approval]
  have e2cnt : s2.owned_tokens_count =
      KV.insert s.owned_tokens_count from_ (c - 1) := by
    rw [hs2]; simp [clear_approval]
  have hc2s : KV.get s.owned_tokens_count from_ = some c := hc2
  subst hs3
  refine ⟨?_, ?_, ?_, ?_⟩
  · show KV.get (KV.insert s2.token_owner id to_) id = some to_
    exact KV.get_insert_self _ _ _
  · show (KV.get (KV.insert s2.owned_tokens_count to_
      (balance_of s2 to_ + 1)) from_).getD 0 + 1 = balance_of s from_
    rw [KV.get_insert_ne hne, e2cnt, KV.get_insert_self]
    simp [balance_of, balance_of_or_zero, hc2s]
    omega
  · show (KV.get (KV.insert s2.owned_tokens_count to_
      (balance_of s2 to_ + 1)) to_).getD 0 = balance_of s to_ + 1
    rw [KV.get_insert_self]
    simp [balance_of, balance_of_or_zero, e2cnt, KV.get_insert_ne hne2]
  · show KV.get s2.token_approvals id = none
    rw [e2app]
    exact KV.get_remove_self _ _

/-- C6 witness: the transfer of token 1 from principal 1 to principal 2 in
the minted state, with all four conclusions evaluated. -/
theorem c6_amended_witness :
    owner_of afterTransferState 1 = some 2 ∧
      balance_of afterTransferState 1 + 1 = balance_of mintedState 1 ∧
      balance_of afterTransferState 2 = balance_of mintedState 2 + 1 ∧
      get_approved afterTransferState 1 = none :=
  c6_amended mintedState afterTransferState 1 1 2 1 (by decide) (by decide)

/-! ## Claim C7 -/

/-- C7: in every reachable state, for every principal the materialized
balance equals the number of Owner-of entries whose value is that principal:
every ownership mutation is paired with the matching balance update. -/
theorem c7_balance_matches_ownership (s : Erc721) (h : Reachable s)
    (p : AccountId) : balance_of s p = ownedCount s p :=
  (reachable_inv h).1.2 p

/-- C7 witness: balance and ownership count agree on the reachable minted
state. -/
theorem c7_witness : balance_of mintedState 1 = ownedCount mintedState 1 :=
  c7_balance_matches_ownership mintedState
    (Relation.ReflTransGen.single ⟨Op.mint 1 1 "u", by decide⟩) 1

/-! ## Claim C8 -/

/-- C8: for transfer and transfer_from on an existing token, the
authorization check runs before the from-owner check: a caller that is
neither the owner, nor the approved principal, nor an operator of the owner
receives NotApproved whatever from is supplied, while an authorized caller
whose supplied from differs from the actual owner receives NotOwner. -/
theorem c8_check_order (s : Erc721) (caller from_ to_ : AccountId)
    (id : TokenId) (owner : AccountId) (hown : owner_of s id = some owner) :
    (caller ≠ owner → KV.get s.token_approvals id ≠ some caller →
        approved_for_all_q s owner caller = false →
        transfer_token_from s caller from_ to_ id = .err .NotApproved s) ∧
      (approved_or_owner s caller id owner = true → from_ ≠ owner →
        transfer_token_from s caller from_ to_ id = .err .NotOwner s) := by
  constructor
  · intro h1 h2 h3
    have hfalse : approved_or_owner s caller id owner = false := by
      simp [approved_or_owner, h1, h2, h3]
    unfold transfer_token_from
    rw [hown]
    simp [hfalse]
  · intro hauth hne
    have hne2 : ¬ owner = from_ := fun e => hne e.symm
    unfold transfer_token_from
    rw [hown]
    simp [hauth, hne2]

/-- C8 witness: on the minted state, the stranger principal 2 receives
NotApproved with a wrong from, and the owner principal 1 receives NotOwner
with a wrong from. -/
theorem c8_witness :
    transfer_token_from mintedState 2 3 4 1 = .err .NotApproved mintedState ∧
      transfer_token_from mintedState 1 3 4 1 = .err .NotOwner mintedState :=
  ⟨(c8_check_order mintedState 2 3 4 1 1 (by decide)).1 (by decide) (by decide)
      (by decide),
    (c8_check_order mintedState 1 3 4 1 1 (by decide)).2 (by decide) (by decide)⟩

/-! ## Claim C9 -/

/-- C9 counterexample: with an approval already active for token 1, a call to
approve by the owner naming the null principal does not fail with
CannotInsert: the non-null-target check runs earlier and the call fails with
NotAllowed, so not every approve call under an active approval yields
CannotInsert. -/
theorem c9_counterexample :
    KV.contains approvedState.token_approvals 1 = true ∧
      approve_for approvedState 1 nullAccount 1 = .err .NotAllowed approvedState ∧
      Outcome.errKind (approve_for approvedState 1 nullAccount 1) ≠
        some .CannotInsert := by
  refine ⟨by decide, by decide, by decide⟩

/-- C9 amended: while a per-token approval is active for an existing token,
every approve call that passes the authorization and non-null-target checks -
even by the owner, even naming the same approved principal - fails with
CannotInsert and leaves the state unchanged; in particular, immediately after
a successful approve the same call again fails with CannotInsert. -/
theorem c9_amended (s : Erc721) (caller to_ : AccountId) (id : TokenId) :
    (∀ owner, owner_of s id = some owner →
        ((owner == caller) || approved_for_all_q s owner caller) = true →
        to_ ≠ nullAccount → KV.contains s.token_approvals id = true →
        approve_for s caller to_ id = .err .CannotInsert s) ∧
      (∀ s', approve_for s caller to_ id = .ok s' →
        approve_for s' caller to_ id = .err .CannotInsert s') := by
  constructor
  · intro owner hown hauth hto happ
    unfold approve_for
    rw [hown]
    simp [hauth, hto, happ]
  · intro s' hok
    obtain ⟨owner, hown, hauth, hto, happ, hs⟩ := approve_ok_spec hok
    have h1 : owner_of s' id = some owner := by rw [hs]; exact hown
    have h2 : ((owner == caller) || approved_for_all_q s' owner caller) = true := by
      rw [hs]; exact hauth
    have h3 : KV.contains s'.token_approvals id = true := by
      rw [hs]
      show KV.contains (KV.insert s.token_approvals id to_) id = true
      exact KV.contains_insert_self _ _ _
    unfold approve_for
    rw [h1]
    simp [h2, h3, hto]

/-- C9 witness: on the approved state, an owner approve towards a third
principal and a repeat of the original approve both fail with CannotInsert. -/
theorem c9_amended_witness :
    approve_for approvedState 1 5 1 = .err .CannotInsert approvedState ∧
      approve_for approvedState 1 2 1 = .err .CannotInsert approvedState :=
  ⟨(c9_amended approvedState 1 5 1).1 1 (by decide) (by decide) (by decide)
      (by decide),
    (c9_amended mintedState 1 2 1).2 approvedState (by decide)⟩

/-! ## Claim C10 -/

theorem remove_no_cfv {s : Erc721} {from_ : AccountId} {id : TokenId}
    (hc : ∃ c, KV.get s.owned_tokens_count from_ = some c ∧ 1 ≤ c) :
    Outcome.errKind (remove_token_from s from_ id) ≠ some .CannotFetchValue ∧
      remove_token_from s from_ id ≠ .panic := by
  obtain ⟨c, hc, hge⟩ := hc
  have hsub : checkedSub c 1 = some (c - 1) := by
    unfold checkedSub
    rw [if_neg (by omega)]
  by_cases hcont : KV.contains s.token_owner id = true
  · unfold remove_token_from
    simp [hcont, hc, hsub, Outcome.errKind]
  · have hcf : KV.contains s.token_owner id = false := by simpa using hcont
    unfold remove_token_from
    simp [hcf, Outcome.errKind]

/-- C10: in every state where each owner of an existing token has a balance
entry of at least one, the CannotFetchValue branches of burn and of the
token-removal step of transfer are unreachable, and the checked subtraction
of the balance cannot underflow (no panic from it); transfer as a whole never
returns CannotFetchValue in such a state. -/
theorem c10_cannot_fetch_unreachable (s : Erc721)
    (hbal : ∀ t o, KV.get s.token_owner t = some o →
      ∃ c, KV.get s.owned_tokens_count o = some c ∧ 1 ≤ c) :
    (∀ caller id, Outcome.errKind (burn s caller id) ≠ some .CannotFetchValue ∧
        burn s caller id ≠ .panic) ∧
      (∀ from_ id, KV.get s.token_owner id = some from_ →
        Outcome.errKind (remove_token_from s from_ id) ≠
            some .CannotFetchValue ∧
          remove_token_from s from_ id ≠ .panic) ∧
      (∀ caller from_ to_ id,
        Outcome.errKind (transfer_token_from s caller from_ to_ id) ≠
          some .CannotFetchValue) := by
  refine ⟨?_, ?_, ?_⟩
  · intro caller id
    cases hown : KV.get s.token_owner id with
    | none =>
      unfold burn
      rw [hown]
      simp [Outcome.errKind]
    | some owner =>
      unfold burn
      rw [hown]
      by_cases heq : owner = caller
      · subst heq
        obtain ⟨c, hc, hge⟩ := hbal id owner hown
        have hsub : checkedSub c 1 = some (c - 1) := by
          unfold checkedSub
          rw [if_neg (by omega)]
        simp [hc, hsub, Outcome.errKind]
      · simp [heq, Outcome.errKind]
  · intro from_ id hown
    exact remove_no_cfv (hbal id from_ hown)
  · intro caller from_ to_ id
    unfold transfer_token_from
    cases hown : owner_of s id with
    | none => simp [Outcome.errKind]
    | some owner =>
      by_cases hauth : approved_or_owner s caller id owner = true
      · by_cases heq : owner = from_
        · subst heq
          cases hrem : remove_token_from (clear_approval s id) owner id with
          | ok s2 =>
            simp only [hauth]
            simp
            cases hadd : add_token_to s2 to_ id with
            | ok s3 => simp [Outcome.errKind]
            | err e1 s3 =>
              obtain ⟨-, he⟩ := add_err_spec hadd
              rcases he with he | he <;> subst he <;> simp [Outcome.errKind]
            | panic => simp [Outcome.errKind]
          | err e1 s2 =>
            obtain ⟨c, hcs, hge⟩ := hbal id owner hown
            have hno := @remove_no_cfv (clear_approval s id) owner id
              ⟨c, hcs, hge⟩
            rw [hrem] at hno
            simp [Outcome.errKind] at hno
            simp [hauth, Outcome.errKind]
            exact hno
          | panic => simp [hauth, Outcome.errKind]
        · simp [hauth, heq, Outcome.errKind]
      · simp [hauth, Outcome.errKind]

/-- C10 hypothesis holds for the minted state. -/
theorem mintedState_bal : ∀ t o,
    KV.get mintedState.token_owner t = some o →
    ∃ c, KV.get mintedState.owned_tokens_count o = some c ∧ 1 ≤ c := by
  intro t o h
  by_cases ht : t = 1
  · subst ht
    have ho : o = 1 := by
      have h2 := h
      simp [mintedState, KV.get] at h2
      exact h2.symm
    subst ho
    exact ⟨1, by simp [mintedState, KV.get], by omega⟩
  · have h1 : ¬ (1 : TokenId) = t := fun e => ht e.symm
    have hnone : KV.get mintedState.token_owner t = (none : Option AccountId) := by
      simp [mintedState, KV.get, h1]
    rw [hnone] at h
    simp at h

/-- C10 witness: on the minted state the hypothesis holds and burn cannot
return CannotFetchValue or panic. -/
theorem c10_witness :
    Outcome.errKind (burn mintedState 1 1) ≠ some .CannotFetchValue ∧
      burn mintedState 1 1 ≠ .panic :=
  (c10_cannot_fetch_unreachable mintedState mintedState_bal).1 1 1
